import Mathlib

/-!
Verification of the tier-ranking state engine of `script.js`
(FantasyFootballCheatSheet).

The page state is embedded shallowly: a tier (a `.tier` div with its
`.player-list` ul) becomes a pair of a `TierKey` and the ordered list of the
`data-id` strings of its `.player` children, and the whole `#tiers` container
becomes a list of such pairs in document order.  DOM node moves
(`appendChild` / `insertBefore`, which first detach the node from wherever it
currently is) become the corresponding pure list operations.  `localStorage`
contents become an explicit `Stored` value, where `Stored.malformed` stands
for exactly those stored strings on which `JSON.parse` throws, and
`Stored.wellFormed` carries the parse of a serialized registry (for the
object shapes written by `saveRankings`, `JSON.parse ∘ JSON.stringify` is the
identity and preserves key order, so serialization is modelled as the
identity on the association list).  `parseInt` of the rank input is modelled
as `Option Int`, `none` standing for `NaN`.  `localeCompare` of lowercased
names is modelled as code-point string comparison.

The initial page markup (`index.html`) is not part of the sources; following
the spec, the unassigned ("unranked") tier always exists at initialization
and tier lists start empty.  Theorems that depend on the initial markup take
it as a parameter constrained exactly that way.
-/

namespace CheatSheet

/-- Tier keys as stored in `data-tier` / the `tier-${n}` list ids of
`script.js`: numbered tiers plus the reserved `unranked` tier. -/
inductive TierKey where
  | num (n : Nat)
  | unranked
deriving DecidableEq, Repr

/-- The `#tiers` container in document order: each `.tier` with the ordered
`data-id`s of the `.player` elements of its `.player-list`. -/
abbrev Dom := List (TierKey × List String)

/-- JS `s || d` for an optional string field: `undefined` and the empty
string are falsy (script.js lines 39, 41, 51, 250-256). -/
def jsOr (o : Option String) (d : String) : String :=
  match o with
  | some s => if s = "" then d else s
  | none => d

/-- Character-list version of JS `String.prototype.startsWith`. -/
def charsPrefix : List Char → List Char → Bool
  | [], _ => true
  | _ :: _, [] => false
  | a :: as, b :: bs => a = b && charsPrefix as bs

/-- Character-list version of JS `String.prototype.includes`: the needle
occurs contiguously in the haystack. -/
def charsIncludes (needle : List Char) : List Char → Bool
  | [] => needle.isEmpty
  | c :: cs => charsPrefix needle (c :: cs) || charsIncludes needle cs

/-- JS `hay.includes(needle)` on strings. -/
def strIncludes (hay needle : String) : Bool :=
  charsIncludes needle.data hay.data

/-- JS `s.toUpperCase()` (ASCII data, character by character). -/
def jsToUpper (s : String) : String :=
  String.mk (s.data.map Char.toUpper)

/-- JS `s.toLowerCase()` (ASCII data, character by character). -/
def jsToLower (s : String) : String :=
  String.mk (s.data.map Char.toLower)

/-- DOM detachment of the node with a given `data-id` from one child list
(moving a node with `appendChild`/`insertBefore` first removes it from its
current parent; a node occurs at most once in the tree, and in every
reachable state ids identify nodes uniquely). -/
def removeId (id : String) (l : List String) : List String :=
  l.filter (fun x => x ≠ id)

/-- DOM `parent.insertBefore(node, ref)` on a child list from which `node`
is already detached: insert `node` directly before the first occurrence of
`ref`.  (In the modelled call sites `ref` is always a child, so the
empty-list fallback is unreachable.) -/
def insertBeforeRef (node ref : String) : List String → List String
  | [] => [node]
  | x :: xs => if x = ref then node :: x :: xs else x :: insertBeforeRef node ref xs

/-- JS `players.indexOf(player)`: index of the first occurrence, `-1` when
absent (script.js line 196). -/
def jsIndexOf (l : List String) (x : String) : Int :=
  if x ∈ l then (l.indexOf x : Int) else -1

/-- JS `players[i]` for a possibly negative index, as used with `|| null` in
script.js line 201: out-of-range access yields `undefined`. -/
def jsGetElem (l : List String) (i : Int) : Option String :=
  if i < 0 then none else l[i.toNat]?

/-- The clamping of script.js lines 192-194: `parseInt` giving `NaN`
(`none`) or a value below 1 becomes 1, then values above the list length
become the list length. -/
def clampRank (v : Option Int) (len : Nat) : Int :=
  let n : Int :=
    match v with
    | none => 1
    | some k => if k < 1 then 1 else k
  if n > (len : Int) then (len : Int) else n

/-- Observable outcome of `handleRankInputChange`: the new order of the
candidate's tier list, whether `updateRanks` ran, and whether `delayedSave`
scheduled a persistence write. -/
structure RankInputResult where
  order : List String
  ranksRecomputed : Bool
  saveScheduled : Bool
deriving DecidableEq, Repr

/-- script.js lines 186-204 (`handleRankInputChange`), restricted to the
tier holding the candidate: early exit for the unranked tier, clamp the
typed rank, early exit (ranks recomputed only) when the target index equals
the current index, otherwise `list.insertBefore(player, players[newRank - 1]
|| null)` against the pre-removal snapshot `players`, then recompute ranks
and schedule a save. -/
def handleRankInputChange (isUnranked : Bool) (players : List String)
    (p : String) (v : Option Int) : RankInputResult :=
  if isUnranked then ⟨players, false, false⟩
  else
    let newRank := clampRank v players.length
    let currentIndex := jsIndexOf players p
    if currentIndex = newRank - 1 then ⟨players, true, false⟩
    else
      match jsGetElem players (newRank - 1) with
      | some ref => ⟨insertBeforeRef p ref (removeId p players), true, true⟩
      | none => ⟨removeId p players ++ [p], true, true⟩

/-- The rank assignments `updateRanks` (script.js lines 173-184) performs
for one `.tier`: nothing for the unranked tier, otherwise each player in
order receives `i + 1`. -/
def tierRanks (t : TierKey × List String) : List (String × Nat) :=
  if t.1 = TierKey.unranked then []
  else t.2.zip (List.range' 1 t.2.length)

/-- All rank-input assignments of one `updateRanks` pass over the `.tier`
elements in document order (script.js lines 173-184). -/
def updateRanks (dom : Dom) : List (String × Nat) :=
  dom.flatMap tierRanks

/-- The value found under the `rankings` key of `localStorage`: absent,
present but not parseable by `JSON.parse` (which then throws), or the parse
of a serialized registry as written by `saveRankings`. -/
inductive Stored where
  | absent
  | malformed (text : String)
  | wellFormed (tiers : List (TierKey × List String))
deriving DecidableEq, Repr

/-- script.js lines 133-145 (`saveRankings`): serialize every `.player-list`
in document order as `listId ↦ [playerId, ...]` and store it under
`rankings`; `JSON.stringify`/`JSON.parse` round-trip on that shape is the
identity, so the stored parse is the association list itself. -/
def saveRankings (dom : Dom) : Stored :=
  Stored.wellFormed dom

/-- Whether some `.player` with the given `data-id` exists anywhere in the
document (`document.querySelector` over all tiers). -/
def domHasId (id : String) (dom : Dom) : Bool :=
  dom.any (fun t => t.2.contains id)

/-- `document.getElementById` over the tier lists: position of the first
tier with the given key, if any. -/
def findTierIdx (key : TierKey) : Dom → Option Nat
  | [] => none
  | t :: ts => if t.1 = key then some 0 else (findTierIdx key ts).map (· + 1)

/-- Number of `.player` elements with the given `data-id` anywhere in the
document. -/
def countAll (dom : Dom) (id : String) : Nat :=
  (dom.map Prod.snd).flatten.count id

/-- Append `id` to the order of the tier at position `j` (DOM `appendChild`
of an already-detached or freshly created node into that tier's list). -/
def appendAt (j : Nat) (id : String) : Dom → Dom
  | [] => []
  | t :: ts =>
    match j with
    | 0 => (t.1, t.2 ++ [id]) :: ts
    | j' + 1 => t :: appendAt j' id ts

/-- Detach the node with the given id from every tier list (the implicit
removal step of a DOM node move). -/
def detach (id : String) (dom : Dom) : Dom :=
  dom.map (fun t => (t.1, removeId id t.2))

/-- One entry of the `loadRankings` loop (script.js lines 151-163): look the
tier list up by id (`getElementById`: first match in document order; when it
does not exist the entry is skipped), then for each persisted player id move
the existing element to the end of that list (`appendChild`), or skip with a
warning when no such player exists in the document. -/
def loadEntry (dom : Dom) (entry : TierKey × List String) : Dom :=
  match findTierIdx entry.1 dom with
  | none => dom
  | some j =>
    entry.2.foldl
      (fun d id => if domHasId id d then appendAt j id (detach id d) else d) dom

/-- script.js lines 147-164 (`loadRankings`): `JSON.parse` of the stored
value (absent reads as the literal `'{}'`, an empty object), then the
per-entry restore loop.  A malformed stored value makes `JSON.parse` throw;
the exception leaves `loadRankings` uncaught, modelled as `Except.error`. -/
def loadRankings (stored : Stored) (dom : Dom) : Except Unit Dom :=
  match stored with
  | Stored.absent => Except.ok dom
  | Stored.malformed _ => Except.error ()
  | Stored.wellFormed entries => Except.ok (entries.foldl loadEntry dom)

/-- A raw record of the Sleeper players mapping, with the fields `script.js`
reads; a missing field is `none`. -/
structure PlayerRec where
  first_name : Option String
  last_name : Option String
  team : Option String
  position : Option String
deriving DecidableEq, Repr

/-- One element of `allPlayers` (script.js line 249): the mapping key `id`
spread together with its record. -/
structure Player where
  id : String
  info : PlayerRec
deriving DecidableEq, Repr

/-- The position filter key of script.js line 250: `(p.position || '')
.toUpperCase()`. -/
def posOf (p : Player) : String :=
  jsToUpper (jsOr p.info.position "")

/-- The predicate of the filter at script.js line 250. -/
def keepPosition (p : Player) : Bool :=
  (["QB", "RB", "WR", "TE"] : List String).contains (posOf p)

/-- Sort key of script.js lines 252-253: lowercased last name. -/
def lastKey (p : Player) : String :=
  jsToLower (jsOr p.info.last_name "")

/-- Secondary sort key of script.js line 256: lowercased first name. -/
def firstKey (p : Player) : String :=
  jsToLower (jsOr p.info.first_name "")

/-- The comparator of script.js lines 251-257 as a boolean "not after"
relation: `a` sorts no later than `b` iff the comparator does not return a
positive value on `(a, b)`. -/
def playerLE (a b : Player) : Bool :=
  if lastKey a < lastKey b then true
  else if lastKey b < lastKey a then false
  else decide (firstKey a ≤ firstKey b)

/-- The construction of `allPlayers` in script.js lines 248-257:
`Object.entries` mapped to records carrying their id, filtered to the four
kept positions, and sorted by the lowercase (last name, first name) key
(`Array.prototype.sort` is a stable comparison sort, modelled by
`mergeSort`). -/
def populatePool (entries : List (String × PlayerRec)) : List Player :=
  ((entries.map (fun e => Player.mk e.1 e.2)).filter keepPosition).mergeSort playerLE

/-- Append a freshly created player element (`createPlayerElement` +
`appendChild`) to the first list with the given id; a no-op when
`getElementById` finds none (in `populateUnranked` and `renderMorePlayers`
the unranked list is required to exist). -/
def appendNewTo (key : TierKey) (id : String) (dom : Dom) : Dom :=
  match findTierIdx key dom with
  | none => dom
  | some j => appendAt j id dom

/-- The Option-A render-all loop of script.js lines 262-266: append an
element for every pool player whose `data-id` is not already in the
document, in pool order, to the unranked list. -/
def renderAll (pool : List Player) (dom : Dom) : Dom :=
  pool.foldl
    (fun d p => if domHasId p.id d then d else appendNewTo TierKey.unranked p.id d) dom

/-- The engine state the claims quantify over: the rendered tiers, the
sorted pool ids (`allPlayers`), the filtered display array
(`currentDisplayArray`) and the lazy-render cursor (`displayedCount`). -/
structure AppState where
  dom : Dom
  pool : List String
  displayArray : List String
  displayedCount : Nat
deriving DecidableEq, Repr

/-- script.js lines 213-229 (`renderMorePlayers`): slice the next `limit`
ids of the display array, append an element for each id not already in the
document to the unranked list, and advance `displayedCount` by the slice
length.  When no unranked list exists the function returns before touching
anything. -/
def renderMorePlayers (s : AppState) (limit : Nat) : AppState :=
  if (findTierIdx TierKey.unranked s.dom).isNone then s
  else
    let slice := (s.displayArray.drop s.displayedCount).take limit
    let dom :=
      slice.foldl
        (fun d id => if domHasId id d then d else appendNewTo TierKey.unranked id d) s.dom
    { s with dom := dom, displayedCount := s.displayedCount + slice.length }

/-- Number of elements initially rendered (script.js line 28). -/
def DISPLAY_CHUNK : Nat := 100

/-- Number of elements appended per scroll trigger (script.js line 29). -/
def LOAD_MORE_CHUNK : Nat := 50

/-- script.js lines 207-211 (`renderInitialPlayers`): reset the display
array to a copy of `allPlayers` and the cursor to 0, then reveal the first
chunk. -/
def renderInitialPlayers (s : AppState) : AppState :=
  renderMorePlayers { s with displayArray := s.pool, displayedCount := 0 } DISPLAY_CHUNK

/-- Insert an already-detached node at child index `idx` of the tier at
position `j` of the document (the insertion half of a drag drop). -/
def insertAtTier : Nat → Nat → String → Dom → Dom
  | _, _, _, [] => []
  | 0, idx, id, t :: ts => (t.1, t.2.insertIdx (min idx t.2.length) id) :: ts
  | j + 1, idx, id, t :: ts => t :: insertAtTier j idx id ts

/-- A completed drag gesture as reported by the reorder notifier: the
library has moved the node with the given id into the tier at position
`toTier` of the document, at child index `toIdx` (an index the drop
actually had, hence at most the list length).  No node or no such tier
means no gesture. -/
def moveNode (id : String) (toTier toIdx : Nat) (dom : Dom) : Dom :=
  if domHasId id dom && decide (toTier < dom.length) then
    insertAtTier toTier toIdx id (detach id dom)
  else dom

/-- `handleRankInputChange` at document level: the input's `closest('.tier')`
is the first tier whose list contains the candidate's element; no element
anywhere means no change event can fire. -/
def applyRankInput : Dom → String → Option Int → Dom × Bool × Bool
  | [], _, _ => ([], false, false)
  | t :: ts, id, v =>
    if t.2.contains id then
      let r := handleRankInputChange (decide (t.1 = TierKey.unranked)) t.2 id v
      ((t.1, r.order) :: ts, r.ranksRecomputed, r.saveScheduled)
    else
      let rest := applyRankInput ts id v
      (t :: rest.1, rest.2)

/-- Numbers of the existing tiers as read by the add-tier click handler
(script.js lines 290-293). -/
def tierNums (dom : Dom) : List Nat :=
  dom.filterMap (fun t =>
    match t.1 with
    | TierKey.num n => some n
    | TierKey.unranked => none)

/-- The new tier number of script.js line 294: `Math.max(...existing) + 1`,
or 1 when no numbered tier exists. -/
def newTierNumber (dom : Dom) : Nat :=
  if (tierNums dom).isEmpty then 1 else (tierNums dom).foldr max 0 + 1

/-- `tiersContainer.insertBefore(tierDiv, unranked)` of script.js lines
117-120: insert the new tier directly before the first unranked tier, or
append it when none exists. -/
def insertTierBeforeUnranked (t : TierKey × List String) : Dom → Dom
  | [] => [t]
  | u :: us =>
    if u.1 = TierKey.unranked then t :: u :: us else u :: insertTierBeforeUnranked t us

/-- The add-tier click handler (script.js lines 289-297) followed by
`createTier` (lines 102-123): compute the next tier number and insert the
new empty tier before the unranked tier. -/
def addTierClick (dom : Dom) : Dom :=
  insertTierBeforeUnranked (TierKey.num (newTierNumber dom), []) dom

/-- The engine mutations a loaded page can perform, abstracted from their
UI triggers: a completed drag, a manual rank edit, the initial reveal, a
scroll-triggered reveal, the add-tier button, and a registry restore. -/
inductive Op where
  | move (id : String) (toTier toIdx : Nat)
  | rankInput (id : String) (v : Option Int)
  | renderInitial
  | revealMore (n : Nat)
  | addTier
  | load (entries : List (TierKey × List String))
deriving DecidableEq, Repr

/-- One engine step. -/
def stepOp (s : AppState) : Op → AppState
  | Op.move id toTier toIdx => { s with dom := moveNode id toTier toIdx s.dom }
  | Op.rankInput id v => { s with dom := (applyRankInput s.dom id v).1 }
  | Op.renderInitial => renderInitialPlayers s
  | Op.revealMore n => renderMorePlayers s n
  | Op.addTier => { s with dom := addTierClick s.dom }
  | Op.load entries => { s with dom := entries.foldl loadEntry s.dom }

/-- Run a sequence of engine steps. -/
def runOps (ops : List Op) (s : AppState) : AppState :=
  ops.foldl stepOp s

/-- The state after `populateUnranked` (script.js lines 246-279) on a fresh
page whose markup provides the tier skeleton `html`: build and sort the
pool, render every pool player, then restore the persisted tier entries
`saved`.  (`currentDisplayArray` starts as the empty global of line 26.) -/
def initState (html : Dom) (entries : List (String × PlayerRec))
    (saved : List (TierKey × List String)) : AppState :=
  let pool := populatePool entries
  { dom := saved.foldl loadEntry (renderAll pool html)
    pool := pool.map Player.id
    displayArray := []
    displayedCount := 0 }

/-- `populateUnranked` composed with an arbitrary stored value, as run on a
page reload: render the pool into the markup `html`, then `loadRankings`;
a parse failure there propagates out. -/
def reloadDom (html : Dom) (entries : List (String × PlayerRec))
    (stored : Stored) : Except Unit Dom :=
  loadRankings stored (renderAll (populatePool entries) html)

/-- The uniqueness invariant of the spec, relative to the loaded pool ids:
every pool id occurs in exactly one tier list and every other id in none,
the display array only holds pool ids, and `allPlayers` is the loaded
pool. -/
def UniqInv (pool : List String) (s : AppState) : Prop :=
  s.pool = pool ∧ (∀ id ∈ s.displayArray, id ∈ pool) ∧
    ∀ id, countAll s.dom id = if id ∈ pool then 1 else 0

/-- The `dataset` of a rendered `.player` element as `createPlayerElement`
(script.js lines 35-66) writes it: `name` is the trimmed full display name
lowercased, `pos` is the position uppercased. -/
structure PlayerEl where
  name : String
  pos : String
deriving DecidableEq, Repr

/-- The filter state read by `applyFilters`: `nameSearch` is the already
lowercased text-input value (script.js line 234) and `activePosFilter` the
already uppercased category, `""` meaning none (lines 10, 320-322). -/
structure FilterState where
  nameSearch : String
  activePosFilter : String
deriving DecidableEq, Repr

/-- The per-element visibility computed by `applyFilters` (script.js lines
236-242). -/
def visibleB (p : PlayerEl) (f : FilterState) : Bool :=
  let matchesName := f.nameSearch = "" || strIncludes p.name f.nameSearch
  let matchesPos := f.activePosFilter = "" || jsToUpper p.pos = f.activePosFilter
  matchesName && matchesPos

/-- script.js lines 233-243 (`applyFilters`): every rendered `.player`
element is marked shown or hidden from its own dataset and the filter state
alone. -/
def applyFilters (f : FilterState) (els : List PlayerEl) : List (PlayerEl × Bool) :=
  els.map (fun p =>
    (p, (f.nameSearch = "" || strIncludes p.name f.nameSearch) &&
        (f.activePosFilter = "" || jsToUpper p.pos = f.activePosFilter)))

/-- Modelled from the spec: the Filter Engine predicate `computeVisibility
(candidate, filterState)` of spec section 4.6, stated with the mathematical
notion of substring (`index.html` carries no logic; this definition exists
only to be compared with `applyFilters`). -/
def computeVisibility (p : PlayerEl) (f : FilterState) : Prop :=
  (f.nameSearch = "" ∨ ∃ l r, p.name.data = l ++ f.nameSearch.data ++ r) ∧
  (f.activePosFilter = "" ∨ jsToUpper p.pos = f.activePosFilter)

/-! ### Helper lemmas -/

theorem charsPrefix_iff (n : List Char) :
    ∀ h : List Char, charsPrefix n h = true ↔ ∃ r, h = n ++ r := by
  induction n with
  | nil => intro h; simp [charsPrefix]
  | cons a as ih =>
    intro h
    cases h with
    | nil => simp [charsPrefix]
    | cons b bs =>
      simp only [charsPrefix, Bool.and_eq_true, decide_eq_true_eq, ih,
        List.cons_append, List.cons.injEq]
      constructor
      · rintro ⟨hab, r, hr⟩
        exact ⟨r, hab.symm, hr⟩
      · rintro ⟨r, hba, hr⟩
        exact ⟨hba.symm, r, hr⟩

theorem charsIncludes_iff (n : List Char) :
    ∀ h : List Char, charsIncludes n h = true ↔ ∃ l r, h = l ++ n ++ r := by
  intro h
  induction h with
  | nil =>
    simp only [charsIncludes, List.isEmpty_iff]
    constructor
    · intro h0
      exact ⟨[], [], by simp [h0]⟩
    · rintro ⟨l, r, hr⟩
      rcases List.append_eq_nil.mp (List.append_eq_nil.mp hr.symm).1 with ⟨-, h2⟩
      exact h2
  | cons c cs ih =>
    simp only [charsIncludes, Bool.or_eq_true, charsPrefix_iff, ih]
    constructor
    · rintro (⟨r, hr⟩ | ⟨l, r, hr⟩)
      · exact ⟨[], r, by simp [hr]⟩
      · exact ⟨c :: l, r, by simp [hr]⟩
    · rintro ⟨l, r, hr⟩
      cases l with
      | nil => exact Or.inl ⟨r, by simpa using hr⟩
      | cons x xs =>
        right
        rw [List.cons_append, List.cons_append, List.cons.injEq] at hr
        exact ⟨xs, r, hr.2⟩

theorem strIncludes_iff (hay needle : String) :
    strIncludes hay needle = true ↔ ∃ l r, hay.data = l ++ needle.data ++ r :=
  charsIncludes_iff needle.data hay.data

/-! ### Claim theorems: rank input and filters -/

/-- C1.  The spec says a manual rank edit places the candidate at the
1-based rank `requestedRank` clamped to the tier size.  The code violates
this for every downward move: `insertBefore` is given the pre-removal
element at index `newRank - 1`, which after the candidate's own removal
sits at index `newRank - 2`.  Concretely, in a tier ordered `[X, Y, Z]`,
asking rank 3 for `X` yields `[Y, X, Z]` — `X` ends at rank 2, not 3 —
while the claim (and `moveCandidate` with `toIndex = 2`) demands
`[Y, Z, X]`. -/
theorem handleRankInputChange_downward_off_by_one :
    handleRankInputChange false ["X", "Y", "Z"] "X" (some 3) =
      ⟨["Y", "X", "Z"], true, true⟩ ∧
    updateRanks [(TierKey.num 1, ["Y", "X", "Z"])] = [("Y", 1), ("X", 2), ("Z", 3)] := by
  constructor
  · rfl
  · rfl

/-- C2.  The spec says a malformed stored value must be treated as an empty
registry with a warning and must not crash the caller.  `loadRankings`
calls `JSON.parse` outside any try/catch (script.js line 148), so on a
malformed stored value the parse exception propagates to the caller and no
warning is issued; only the absent case yields the empty registry.  (The
`if (!saved) return` guard on line 149 is dead: a successful parse of
`'{}'` is always truthy.) -/
theorem loadRankings_malformed_throws :
    loadRankings (Stored.malformed "\x7b") [(TierKey.num 1, []), (TierKey.unranked, [])] =
      Except.error () ∧
    loadRankings Stored.absent [(TierKey.num 1, []), (TierKey.unranked, [])] =
      Except.ok [(TierKey.num 1, []), (TierKey.unranked, [])] := by
  constructor
  · rfl
  · rfl

/-- C8.  `applyFilters` marks every rendered element independently from its
own dataset and the filter state, and the computed mark is true exactly
when the name predicate and the category predicate of the spec's
`computeVisibility` both hold. -/
theorem applyFilters_computes_visibility (f : FilterState) (els : List PlayerEl)
    (p : PlayerEl) :
    applyFilters f els = els.map (fun q => (q, visibleB q f)) ∧
    (visibleB p f = true ↔ computeVisibility p f) := by
  refine ⟨rfl, ?_⟩
  simp only [visibleB, computeVisibility, Bool.and_eq_true, Bool.or_eq_true,
    decide_eq_true_eq, strIncludes_iff]

/-- C3.  The spec's round-trip property fails on the code for any registry
holding a tier that was created at runtime: `saveRankings` serializes it,
but after a reload the page markup only provides its initial tiers, tiers
are not re-created from the stored registry, and `loadRankings` skips every
entry whose list element does not exist (script.js line 153).  Concretely:
a session with tiers 1, 2 and unranked, candidate "a" ranked in tier 2, is
saved; after reload against the same one-candidate pool, tier 2 does not
exist, and "a" sits in the unranked tier instead of tier 2. -/
theorem saveLoad_runtime_tier_lost :
    reloadDom [(TierKey.num 1, []), (TierKey.unranked, [])]
        [("a", ⟨some "Al", some "Smith", none, some "QB"⟩)]
        (saveRankings [(TierKey.num 1, []), (TierKey.num 2, ["a"]), (TierKey.unranked, [])]) =
      Except.ok [(TierKey.num 1, []), (TierKey.unranked, ["a"])] := by
  have hpool : populatePool [("a", ⟨some "Al", some "Smith", none, some "QB"⟩)] =
      [Player.mk "a" ⟨some "Al", some "Smith", none, some "QB"⟩] := by
    apply List.perm_singleton.mp
    unfold populatePool
    rw [show (([("a", (⟨some "Al", some "Smith", none, some "QB"⟩ : PlayerRec))].map
        (fun e => Player.mk e.1 e.2)).filter keepPosition) =
        [Player.mk "a" ⟨some "Al", some "Smith", none, some "QB"⟩] by decide]
    exact List.mergeSort_perm _ _
  unfold reloadDom
  rw [hpool]
  rfl

/-! ### Rank synchronization (C5) -/

theorem zip_range'_getElem (l : List String) :
    ∀ s i : Nat, (l.zip (List.range' s l.length))[i]? = l[i]?.map (fun a => (a, s + i)) := by
  induction l with
  | nil => intro s i; simp
  | cons a as ih =>
    intro s i
    rw [List.length_cons, List.range'_succ, List.zip_cons_cons]
    cases i with
    | zero => simp
    | succ i =>
      rw [List.getElem?_cons_succ, List.getElem?_cons_succ, ih (s + 1) i,
        show s + 1 + i = s + (i + 1) by omega]

/-- C5.  One `updateRanks` pass assigns, within every non-unranked tier of
`N` members, exactly the ranks `1..N` in order — rank `1 + i` to the member
at index `i`, with no gaps and no duplicates — and performs no assignment
at all for the unranked tier. -/
theorem updateRanks_rank_contiguity (pre post : Dom) (k : TierKey) (l : List String) :
    updateRanks (pre ++ (k, l) :: post) =
      updateRanks pre ++ tierRanks (k, l) ++ updateRanks post ∧
    (k ≠ TierKey.unranked →
      (tierRanks (k, l)).map Prod.snd = List.range' 1 l.length ∧
      ((tierRanks (k, l)).map Prod.snd).Nodup ∧
      ∀ i, (hi : i < l.length) → (tierRanks (k, l))[i]? = some (l.get ⟨i, hi⟩, 1 + i)) ∧
    (k = TierKey.unranked → tierRanks (k, l) = []) := by
  refine ⟨?_, ?_, ?_⟩
  · simp [updateRanks, List.flatMap_append]
  · intro hk
    have ht : tierRanks (k, l) = l.zip (List.range' 1 l.length) := by
      simp [tierRanks, hk]
    have hsnd : (tierRanks (k, l)).map Prod.snd = List.range' 1 l.length := by
      rw [ht]
      exact List.map_snd_zip _ _ (by simp)
    refine ⟨hsnd, ?_, ?_⟩
    · rw [hsnd]; exact List.nodup_range' 1 l.length
    · intro i hi
      rw [ht, zip_range'_getElem l 1 i, List.getElem?_eq_getElem hi]
      simp
  · intro hk
    simp [tierRanks, hk]

/-- Witness for C5: in the tier `(1, [a, b])` ranks `[1, 2]` are assigned,
and nothing is assigned in the unranked tier. -/
theorem updateRanks_rank_contiguity_witness :
    (tierRanks (TierKey.num 1, ["a", "b"])).map Prod.snd = List.range' 1 2 ∧
    tierRanks (TierKey.unranked, ["c"]) = [] :=
  ⟨((updateRanks_rank_contiguity [] [] (TierKey.num 1) ["a", "b"]).2.1 (by decide)).1,
   (updateRanks_rank_contiguity [] [] TierKey.unranked ["c"]).2.2 rfl⟩

/-! ### Manual rank idempotence (C6) -/

theorem handleRankInputChange_noop (l : List String) (id : String) (v : Option Int)
    (hrank : clampRank v l.length = jsIndexOf l id + 1) :
    handleRankInputChange false l id v = ⟨l, true, false⟩ := by
  unfold handleRankInputChange
  simp only [Bool.false_eq_true, if_false]
  rw [if_pos (by omega)]

/-- C6.  A manual rank edit whose clamped value equals the candidate's
current rank (current index + 1) leaves every tier's order — hence every
derived rank — unchanged: ranks are recomputed, no persistence write is
scheduled. -/
theorem setManualRank_idempotent (pre post : Dom) (k : TierKey) (l : List String)
    (id : String) (v : Option Int)
    (hpre : ∀ t ∈ pre, id ∉ t.2)
    (hk : k ≠ TierKey.unranked)
    (hmem : id ∈ l)
    (hrank : clampRank v l.length = jsIndexOf l id + 1) :
    applyRankInput (pre ++ (k, l) :: post) id v = (pre ++ (k, l) :: post, true, false) := by
  induction pre with
  | nil =>
    have hc : l.contains id = true := List.elem_iff.mpr hmem
    simp only [List.nil_append, applyRankInput, hc, if_true]
    have hiu : decide (k = TierKey.unranked) = false := by
      simpa using hk
    rw [hiu, handleRankInputChange_noop l id v hrank]
  | cons t ts ih =>
    have ht : t.2.contains id = false := by
      have hnot := hpre t (by simp)
      cases hcontains : t.2.contains id with
      | false => rfl
      | true => exact absurd (List.elem_iff.mp hcontains) hnot
    simp only [List.cons_append, applyRankInput, ht, Bool.false_eq_true, if_false,
      List.append_eq]
    rw [ih (fun x hx => hpre x (by simp [hx]))]

/-- Witness for C6: in the document `[(1, [a, b])]`, asking rank 2 for `b`
(already at index 1) changes nothing and schedules no save. -/
theorem setManualRank_idempotent_witness :
    applyRankInput [(TierKey.num 1, ["a", "b"])] "b" (some 2) =
      ([(TierKey.num 1, ["a", "b"])], true, false) :=
  setManualRank_idempotent [] [] (TierKey.num 1) ["a", "b"] "b" (some 2)
    (by simp) (by decide) (by decide) (by decide)

/-! ### Tier creation (C9) -/

theorem tierNums_append_unranked (pre : Dom) (ul : List String) :
    tierNums (pre ++ [(TierKey.unranked, ul)]) = tierNums pre := by
  simp [tierNums, List.filterMap_append]

theorem newTierNumber_eq (pre : Dom) (ul : List String) :
    newTierNumber (pre ++ [(TierKey.unranked, ul)]) = (tierNums pre).foldr max 0 + 1 := by
  unfold newTierNumber
  rw [tierNums_append_unranked]
  cases hn : tierNums pre with
  | nil => simp
  | cons x xs => simp

theorem insertTierBeforeUnranked_append (t : TierKey × List String) (pre : Dom)
    (ul : List String) (hpre : ∀ u ∈ pre, u.1 ≠ TierKey.unranked) :
    insertTierBeforeUnranked t (pre ++ [(TierKey.unranked, ul)]) =
      pre ++ [t, (TierKey.unranked, ul)] := by
  induction pre with
  | nil => simp [insertTierBeforeUnranked]
  | cons u us ih =>
    have hu : u.1 ≠ TierKey.unranked := hpre u (by simp)
    simp only [List.cons_append, insertTierBeforeUnranked, if_neg hu, List.append_eq]
    rw [ih (fun x hx => hpre x (by simp [hx]))]

/-- C9.  When the unranked tier sits (as always) at the bottom, the
add-tier handler inserts one new empty tier whose number is one more than
the highest existing tier number (`foldr max 0` of no numbers is 0, so 1
when no numbered tier exists), after every existing numbered tier and
immediately before the unranked tier, preserving the relative order of all
existing tiers. -/
theorem createTier_appends_before_unranked (pre : Dom) (ul : List String)
    (hpre : ∀ t ∈ pre, t.1 ≠ TierKey.unranked) :
    addTierClick (pre ++ [(TierKey.unranked, ul)]) =
      pre ++ [(TierKey.num ((tierNums pre).foldr max 0 + 1), []), (TierKey.unranked, ul)] := by
  unfold addTierClick
  rw [newTierNumber_eq, insertTierBeforeUnranked_append _ _ _ hpre]

/-- Witness for C9: adding a tier to `[tier 1, unranked]` yields
`[tier 1, tier 2, unranked]`. -/
theorem createTier_appends_before_unranked_witness :
    addTierClick [(TierKey.num 1, ["x"]), (TierKey.unranked, [])] =
      [(TierKey.num 1, ["x"]), (TierKey.num 2, []), (TierKey.unranked, [])] := by
  have h := createTier_appends_before_unranked [(TierKey.num 1, ["x"])] [] (by decide)
  simpa using h

/-! ### Incremental materializer (C7) -/

theorem renderMorePlayers_fields (s : AppState) (n : Nat) :
    (renderMorePlayers s n).displayArray = s.displayArray ∧
    (renderMorePlayers s n).pool = s.pool := by
  unfold renderMorePlayers
  split <;> simp

theorem renderMorePlayers_dc_mono (s : AppState) (n : Nat) :
    s.displayedCount ≤ (renderMorePlayers s n).displayedCount := by
  unfold renderMorePlayers
  split <;> simp

theorem renderMorePlayers_dc_le (s : AppState) (n : Nat)
    (h : s.displayedCount ≤ s.displayArray.length) :
    (renderMorePlayers s n).displayedCount ≤ (renderMorePlayers s n).displayArray.length := by
  unfold renderMorePlayers
  split
  · exact h
  · simp only [List.length_take, List.length_drop]
    omega

theorem renderMorePlayers_terminal (s : AppState) (n : Nat)
    (h : s.displayedCount = s.displayArray.length) :
    renderMorePlayers s n = s := by
  unfold renderMorePlayers
  split
  · rfl
  · have hslice : (s.displayArray.drop s.displayedCount).take n = ([] : List String) := by
      rw [h, List.drop_length, List.take_nil]
    simp [hslice]

theorem runReveal_dc_le (ns : List Nat) (s : AppState)
    (h : s.displayedCount ≤ s.displayArray.length) :
    (ns.foldl renderMorePlayers s).displayedCount ≤
      (ns.foldl renderMorePlayers s).displayArray.length := by
  induction ns generalizing s with
  | nil => simpa
  | cons n ns ih => exact ih _ (renderMorePlayers_dc_le s n h)

/-- C7.  Along any run of the materializer that starts with the initial
reveal, `displayedCount` never decreases with a further `renderMorePlayers`
call, never exceeds the length of the display array (which reveals never
change), and once it equals that length every further call is a no-op on
the whole state — nothing more is rendered. -/
theorem renderMorePlayers_monotone (s0 : AppState) (ns : List Nat) (n : Nat) :
    (ns.foldl renderMorePlayers (renderInitialPlayers s0)).displayedCount ≤
      (renderMorePlayers (ns.foldl renderMorePlayers (renderInitialPlayers s0)) n).displayedCount ∧
    (renderMorePlayers (ns.foldl renderMorePlayers (renderInitialPlayers s0)) n).displayedCount ≤
      (ns.foldl renderMorePlayers (renderInitialPlayers s0)).displayArray.length ∧
    ((ns.foldl renderMorePlayers (renderInitialPlayers s0)).displayedCount =
        (ns.foldl renderMorePlayers (renderInitialPlayers s0)).displayArray.length →
      renderMorePlayers (ns.foldl renderMorePlayers (renderInitialPlayers s0)) n =
        ns.foldl renderMorePlayers (renderInitialPlayers s0)) := by
  have hinit : (renderInitialPlayers s0).displayedCount ≤
      (renderInitialPlayers s0).displayArray.length := by
    unfold renderInitialPlayers
    exact renderMorePlayers_dc_le _ DISPLAY_CHUNK (by simp)
  have hinv := runReveal_dc_le ns (renderInitialPlayers s0) hinit
  refine ⟨renderMorePlayers_dc_mono _ n, ?_, renderMorePlayers_terminal _ n⟩
  have hb := renderMorePlayers_dc_le (ns.foldl renderMorePlayers (renderInitialPlayers s0)) n hinv
  rwa [(renderMorePlayers_fields _ n).1] at hb

/-- Witness for C7: with a one-player pool the initial reveal reaches the
terminal condition, after which a further reveal changes nothing. -/
theorem renderMorePlayers_monotone_witness :
    renderMorePlayers
        (List.foldl renderMorePlayers
          (renderInitialPlayers ⟨[(TierKey.unranked, [])], ["a"], [], 0⟩) [7]) 5 =
      List.foldl renderMorePlayers
        (renderInitialPlayers ⟨[(TierKey.unranked, [])], ["a"], [], 0⟩) [7] :=
  (renderMorePlayers_monotone ⟨[(TierKey.unranked, [])], ["a"], [], 0⟩ [7] 5).2.2 (by decide)

/-! ### Pool population (C10) -/

theorem playerLE_iff (a b : Player) :
    playerLE a b = true ↔
      (lastKey a < lastKey b ∨ (lastKey a = lastKey b ∧ firstKey a ≤ firstKey b)) := by
  unfold playerLE
  split_ifs with h1 h2
  · simp [h1]
  · simp [h1, h2.ne']
  · have heq : lastKey a = lastKey b := le_antisymm (not_lt.mp h2) (not_lt.mp h1)
    simp [h1, heq]

theorem playerLE_trans (a b c : Player) (h1 : playerLE a b = true)
    (h2 : playerLE b c = true) : playerLE a c = true := by
  rw [playerLE_iff] at h1 h2 ⊢
  rcases h1 with h1 | ⟨e1, f1⟩
  · rcases h2 with h2 | ⟨e2, f2⟩
    · exact Or.inl (h1.trans h2)
    · exact Or.inl (lt_of_lt_of_le h1 (le_of_eq e2))
  · rcases h2 with h2 | ⟨e2, f2⟩
    · exact Or.inl (lt_of_le_of_lt (le_of_eq e1) h2)
    · exact Or.inr ⟨e1.trans e2, f1.trans f2⟩

theorem playerLE_total (a b : Player) : (playerLE a b || playerLE b a) = true := by
  simp only [Bool.or_eq_true, playerLE_iff]
  rcases lt_trichotomy (lastKey a) (lastKey b) with h | h | h
  · exact Or.inl (Or.inl h)
  · rcases le_total (firstKey a) (firstKey b) with hf | hf
    · exact Or.inl (Or.inr ⟨h, hf⟩)
    · exact Or.inr (Or.inr ⟨h.symm, hf⟩)
  · exact Or.inr (Or.inl h)

/-- C10.  `allPlayers` holds exactly the fetched records whose uppercased
position is QB, RB, WR or TE (missing or other positions are dropped), and
it is ordered by lowercased last name and, on equal last names, by
lowercased first name. -/
theorem populateUnranked_filter_sort (entries : List (String × PlayerRec)) :
    (∀ p : Player, p ∈ populatePool entries ↔
        (p ∈ entries.map (fun e => Player.mk e.1 e.2) ∧
         jsToUpper (jsOr p.info.position "") ∈ (["QB", "RB", "WR", "TE"] : List String))) ∧
    (populatePool entries).Pairwise (fun a b =>
        lastKey a < lastKey b ∨ (lastKey a = lastKey b ∧ firstKey a ≤ firstKey b)) := by
  constructor
  · intro p
    unfold populatePool
    rw [(List.mergeSort_perm _ playerLE).mem_iff, List.mem_filter]
    have hkeep : keepPosition p = true ↔
        jsToUpper (jsOr p.info.position "") ∈ (["QB", "RB", "WR", "TE"] : List String) := by
      unfold keepPosition posOf
      exact List.elem_iff
    rw [hkeep]
  · unfold populatePool
    exact (List.sorted_mergeSort playerLE_trans playerLE_total _).imp
      (fun h => (playerLE_iff _ _).mp h)

/-- Witness for C10: a QB record is kept in the pool. -/
theorem populateUnranked_filter_sort_witness :
    Player.mk "a" ⟨some "Al", some "Smith", none, some "QB"⟩ ∈
      populatePool [("a", ⟨some "Al", some "Smith", none, some "QB"⟩)] :=
  ((populateUnranked_filter_sort [("a", ⟨some "Al", some "Smith", none, some "QB"⟩)]).1 _).mpr
    ⟨by simp, by decide⟩

/-! ### Counting lemmas for the uniqueness invariant (C4) -/

theorem countAll_cons (t : TierKey × List String) (ts : Dom) (id : String) :
    countAll (t :: ts) id = t.2.count id + countAll ts id := by
  simp [countAll, List.count_append]

theorem count_removeId_self (id : String) (l : List String) :
    (removeId id l).count id = 0 := by
  rw [List.count_eq_zero]
  intro hmem
  have hne := (List.mem_filter.mp hmem).2
  simp at hne

theorem count_removeId_ne (id x : String) (l : List String) (h : x ≠ id) :
    (removeId id l).count x = l.count x := by
  unfold removeId
  exact List.count_filter (by simpa using h)

theorem countAll_detach_self (id : String) (dom : Dom) :
    countAll (detach id dom) id = 0 := by
  induction dom with
  | nil => rfl
  | cons t ts ih =>
    simp only [detach, List.map_cons] at ih ⊢
    rw [countAll_cons, count_removeId_self, ih]

theorem countAll_detach_ne (id x : String) (dom : Dom) (h : x ≠ id) :
    countAll (detach id dom) x = countAll dom x := by
  induction dom with
  | nil => rfl
  | cons t ts ih =>
    simp only [detach, List.map_cons] at ih ⊢
    rw [countAll_cons, count_removeId_ne id x _ h, ih, countAll_cons]

theorem length_detach (id : String) (dom : Dom) :
    (detach id dom).length = dom.length := by
  simp [detach]

theorem length_appendAt (j : Nat) (id : String) (dom : Dom) :
    (appendAt j id dom).length = dom.length := by
  induction dom generalizing j with
  | nil => simp [appendAt]
  | cons t ts ih =>
    cases j with
    | zero => simp [appendAt]
    | succ j => simp [appendAt, ih j]

theorem countAll_appendAt (j : Nat) (id x : String) (dom : Dom) (hj : j < dom.length) :
    countAll (appendAt j id dom) x = countAll dom x + (if x = id then 1 else 0) := by
  induction dom generalizing j with
  | nil => simp at hj
  | cons t ts ih =>
    cases j with
    | zero =>
      simp only [appendAt, countAll_cons, List.count_append, List.count_singleton']
      by_cases hx : x = id
      · subst hx
        simp only [if_pos rfl]
        omega
      · simp only [if_neg hx, if_neg (Ne.symm hx)]
        omega
    | succ j =>
      have hj' : j < ts.length := by simpa using hj
      simp only [appendAt, countAll_cons, ih j hj']
      omega

theorem countAll_insertAtTier (j idx : Nat) (id x : String) (dom : Dom)
    (hj : j < dom.length) :
    countAll (insertAtTier j idx id dom) x = countAll dom x + (if x = id then 1 else 0) := by
  induction dom generalizing j with
  | nil => simp at hj
  | cons t ts ih =>
    cases j with
    | zero =>
      simp only [insertAtTier, countAll_cons]
      have hperm := @List.perm_insertIdx String id t.2 (min idx t.2.length)
        (Nat.min_le_right _ _)
      rw [hperm.count_eq x, List.count_cons]
      simp only [beq_iff_eq]
      by_cases hx : x = id
      · subst hx
        simp only [if_pos rfl]
        omega
      · simp only [if_neg hx, if_neg (Ne.symm hx)]
        omega
    | succ j =>
      have hj' : j < ts.length := by simpa using hj
      simp only [insertAtTier, countAll_cons, ih j hj']
      omega

theorem domHasId_iff (id : String) (dom : Dom) :
    domHasId id dom = true ↔ 0 < countAll dom id := by
  induction dom with
  | nil => simp [domHasId, countAll]
  | cons t ts ih =>
    simp only [domHasId, List.any_cons, Bool.or_eq_true, countAll_cons] at ih ⊢
    rw [ih]
    constructor
    · rintro (hc | hc)
      · have := List.count_pos_iff.mpr (List.elem_iff.mp hc)
        omega
      · omega
    · intro hpos
      by_cases hc : id ∈ t.2
      · exact Or.inl (List.elem_iff.mpr hc)
      · right
        have := List.count_eq_zero.mpr hc
        omega

theorem findTierIdx_lt_length (key : TierKey) (dom : Dom) (j : Nat)
    (h : findTierIdx key dom = some j) : j < dom.length := by
  induction dom generalizing j with
  | nil => simp [findTierIdx] at h
  | cons t ts ih =>
    simp only [findTierIdx] at h
    split at h
    · cases h
      simp
    · rcases Option.map_eq_some'.mp h with ⟨j', hj', rfl⟩
      have := ih j' hj'
      simp
      omega

theorem countAll_moveNode (id : String) (toTier toIdx : Nat) (dom : Dom) (x : String)
    (hle : countAll dom id ≤ 1) :
    countAll (moveNode id toTier toIdx dom) x = countAll dom x := by
  unfold moveNode
  split_ifs with hcond
  · rw [Bool.and_eq_true] at hcond
    obtain ⟨hhas, hlt⟩ := hcond
    have hjlt : toTier < (detach id dom).length := by
      rw [length_detach]
      exact of_decide_eq_true hlt
    rw [countAll_insertAtTier toTier toIdx id x _ hjlt]
    by_cases hx : x = id
    · subst hx
      rw [countAll_detach_self]
      simp only [eq_self_iff_true, if_true]
      have hpos := (domHasId_iff x dom).mp hhas
      omega
    · rw [countAll_detach_ne id x dom hx]
      simp [hx]
  · rfl

theorem count_insertBeforeRef (node ref : String) (l : List String) (x : String) :
    (insertBeforeRef node ref l).count x = l.count x + (if x = node then 1 else 0) := by
  induction l with
  | nil =>
    by_cases hx : x = node
    · subst hx
      simp [insertBeforeRef]
    · simp [insertBeforeRef, List.count_singleton', hx, Ne.symm hx]
  | cons y ys ih =>
    simp only [insertBeforeRef]
    by_cases h : y = ref
    · rw [if_pos h]
      simp only [List.count_cons, beq_iff_eq]
      by_cases hx : x = node
      · subst hx
        simp only [eq_self_iff_true, if_true]
      · simp only [if_neg hx, if_neg (Ne.symm hx)]
    · rw [if_neg h]
      simp only [List.count_cons, beq_iff_eq, ih]
      omega

theorem count_handleRankInputChange (iu : Bool) (l : List String) (p : String)
    (v : Option Int) (x : String) (hc : l.count p = 1) :
    (handleRankInputChange iu l p v).order.count x = l.count x := by
  unfold handleRankInputChange
  cases iu with
  | true => rfl
  | false =>
    simp only [Bool.false_eq_true, if_false]
    split_ifs with heq
    · rfl
    · by_cases hx : x = p
      · subst hx
        cases href : jsGetElem l (clampRank v l.length - 1) with
        | some ref =>
          simp only [count_insertBeforeRef, count_removeId_self, hc]
          simp
        | none =>
          simp only [List.count_append, count_removeId_self, List.count_singleton', hc]
          simp
      · cases href : jsGetElem l (clampRank v l.length - 1) with
        | some ref =>
          simp only [count_insertBeforeRef, count_removeId_ne p x l hx]
          simp [hx]
        | none =>
          simp only [List.count_append, count_removeId_ne p x l hx, List.count_singleton']
          simp [Ne.symm hx]

theorem countAll_applyRankInput (dom : Dom) (id : String) (v : Option Int) (x : String)
    (hle : countAll dom id ≤ 1) :
    countAll (applyRankInput dom id v).1 x = countAll dom x := by
  induction dom with
  | nil => rfl
  | cons t ts ih =>
    rw [countAll_cons]
    by_cases hcont : t.2.contains id = true
    · have hcnt : t.2.count id = 1 := by
        have hpos := List.count_pos_iff.mpr (List.elem_iff.mp hcont)
        have := countAll_cons t ts id
        omega
      simp only [applyRankInput, hcont, if_true, countAll_cons]
      rw [count_handleRankInputChange _ _ _ _ _ hcnt]
    · have hcontf : t.2.contains id = false := by
        cases hb : t.2.contains id
        · rfl
        · exact absurd hb hcont
      have hle' : countAll ts id ≤ 1 := by
        have := countAll_cons t ts id
        omega
      simp only [applyRankInput, hcontf, Bool.false_eq_true, if_false, countAll_cons]
      rw [ih hle']

theorem keys_appendAt (j : Nat) (id : String) (dom : Dom) :
    (appendAt j id dom).map Prod.fst = dom.map Prod.fst := by
  induction dom generalizing j with
  | nil => simp [appendAt]
  | cons t ts ih =>
    cases j with
    | zero => simp [appendAt]
    | succ j => simp [appendAt, ih j]

theorem findTierIdx_isSome_of_mem (key : TierKey) (dom : Dom)
    (hk : key ∈ dom.map Prod.fst) : (findTierIdx key dom).isSome := by
  induction dom with
  | nil => simp at hk
  | cons t ts ih =>
    simp only [findTierIdx]
    split_ifs with h
    · simp
    · simp only [List.map_cons, List.mem_cons] at hk
      rcases hk with hk | hk
      · exact absurd hk.symm h
      · simpa using ih hk

theorem countAll_appendNewTo (key : TierKey) (id x : String) (dom : Dom)
    (hk : key ∈ dom.map Prod.fst) :
    countAll (appendNewTo key id dom) x = countAll dom x + (if x = id then 1 else 0) := by
  unfold appendNewTo
  cases hf : findTierIdx key dom with
  | none =>
    have hsome := findTierIdx_isSome_of_mem key dom hk
    rw [hf] at hsome
    simp at hsome
  | some j => exact countAll_appendAt j id x dom (findTierIdx_lt_length key dom j hf)

theorem keys_appendNewTo (key : TierKey) (id : String) (dom : Dom) :
    (appendNewTo key id dom).map Prod.fst = dom.map Prod.fst := by
  unfold appendNewTo
  cases hf : findTierIdx key dom with
  | none => rfl
  | some j => exact keys_appendAt j id dom

theorem countAll_insertTierBeforeUnranked (t : TierKey × List String) (ht : t.2 = [])
    (dom : Dom) (x : String) :
    countAll (insertTierBeforeUnranked t dom) x = countAll dom x := by
  induction dom with
  | nil => simp [insertTierBeforeUnranked, countAll_cons, ht, countAll]
  | cons u us ih =>
    simp only [insertTierBeforeUnranked]
    split_ifs with h
    · rw [countAll_cons, ht]
      simp
    · rw [countAll_cons, ih, countAll_cons]

theorem foldAppend_skip (l : List String) (dom : Dom)
    (h : ∀ id ∈ l, domHasId id dom = true) :
    l.foldl (fun d id => if domHasId id d then d else appendNewTo TierKey.unranked id d)
      dom = dom := by
  induction l with
  | nil => rfl
  | cons id ids ih =>
    rw [List.foldl_cons, if_pos (h id (by simp))]
    exact ih (fun y hy => h y (by simp [hy]))

theorem renderMorePlayers_dom_eq (s : AppState) (n : Nat)
    (h : ∀ id ∈ s.displayArray, domHasId id s.dom = true) :
    (renderMorePlayers s n).dom = s.dom := by
  unfold renderMorePlayers
  split
  · rfl
  · exact foldAppend_skip _ _ (fun id hid =>
      h id (List.mem_of_mem_drop (List.mem_of_mem_take hid)))

theorem countAll_restoreFold (ids : List String) (j : Nat) (x : String) :
    ∀ dom : Dom, j < dom.length → (∀ y, countAll dom y ≤ 1) →
    countAll (ids.foldl
      (fun d id => if domHasId id d then appendAt j id (detach id d) else d) dom) x =
      countAll dom x := by
  induction ids with
  | nil => intro dom hj hle; rfl
  | cons id ids ih =>
    intro dom hj hle
    rw [List.foldl_cons]
    by_cases hd : domHasId id dom = true
    · have hstep : ∀ y, countAll (appendAt j id (detach id dom)) y = countAll dom y := by
        intro y
        have hjd : j < (detach id dom).length := by
          rw [length_detach]
          exact hj
        rw [countAll_appendAt j id y _ hjd]
        by_cases hy : y = id
        · subst hy
          rw [countAll_detach_self]
          simp only [eq_self_iff_true, if_true]
          have hpos := (domHasId_iff y dom).mp hd
          have hley := hle y
          omega
        · rw [countAll_detach_ne id y dom hy]
          simp [hy]
      rw [if_pos hd]
      rw [ih (appendAt j id (detach id dom))
        (by rw [length_appendAt, length_detach]; exact hj)
        (fun y => by rw [hstep y]; exact hle y)]
      exact hstep x
    · have hdf : domHasId id dom = false := by
        cases hb : domHasId id dom
        · rfl
        · exact absurd hb hd
      rw [if_neg (by simp [hdf])]
      exact ih dom hj hle

theorem countAll_loadEntry (dom : Dom) (e : TierKey × List String)
    (hle : ∀ y, countAll dom y ≤ 1) (x : String) :
    countAll (loadEntry dom e) x = countAll dom x := by
  unfold loadEntry
  cases hf : findTierIdx e.1 dom with
  | none => rfl
  | some j =>
    exact countAll_restoreFold e.2 j x dom (findTierIdx_lt_length e.1 dom j hf) hle

theorem countAll_loadList (entries : List (TierKey × List String)) (x : String) :
    ∀ dom : Dom, (∀ y, countAll dom y ≤ 1) →
    countAll (entries.foldl loadEntry dom) x = countAll dom x := by
  induction entries with
  | nil => intro dom hle; rfl
  | cons e es ih =>
    intro dom hle
    rw [List.foldl_cons,
      ih (loadEntry dom e) (fun y => by rw [countAll_loadEntry dom e hle y]; exact hle y),
      countAll_loadEntry dom e hle x]

theorem countAll_html_zero (html : Dom) (hempty : ∀ t ∈ html, t.2 = []) (x : String) :
    countAll html x = 0 := by
  induction html with
  | nil => rfl
  | cons t ts ih =>
    have h1 : t.2 = [] := hempty t (by simp)
    rw [countAll_cons, h1, ih (fun u hu => hempty u (by simp [hu]))]
    simp

theorem renderAll_countAll (ps : List Player) (x : String) :
    ∀ dom : Dom, TierKey.unranked ∈ dom.map Prod.fst →
    (ps.map Player.id).Nodup → (∀ p ∈ ps, countAll dom p.id = 0) →
    countAll (renderAll ps dom) x =
      countAll dom x + (if x ∈ ps.map Player.id then 1 else 0) := by
  induction ps with
  | nil => intro dom _ _ _; simp [renderAll]
  | cons p ps ih =>
    intro dom hk hnd hnew
    have hskip : ¬ (domHasId p.id dom = true) := by
      intro hb
      have hpos := (domHasId_iff p.id dom).mp hb
      rw [hnew p (by simp)] at hpos
      exact absurd hpos (lt_irrefl 0)
    have hfold : renderAll (p :: ps) dom =
        renderAll ps (appendNewTo TierKey.unranked p.id dom) := by
      unfold renderAll
      rw [List.foldl_cons, if_neg hskip]
    rw [List.map_cons] at hnd
    obtain ⟨hnotin, hndtail⟩ := List.nodup_cons.mp hnd
    have hcount : ∀ y, countAll (appendNewTo TierKey.unranked p.id dom) y =
        countAll dom y + (if y = p.id then 1 else 0) := fun y =>
      countAll_appendNewTo TierKey.unranked p.id y dom hk
    have hk' : TierKey.unranked ∈ (appendNewTo TierKey.unranked p.id dom).map Prod.fst := by
      rw [keys_appendNewTo]
      exact hk
    have hnew' : ∀ q ∈ ps, countAll (appendNewTo TierKey.unranked p.id dom) q.id = 0 := by
      intro q hq
      rw [hcount q.id, hnew q (by simp [hq])]
      have hne : q.id ≠ p.id := by
        intro he
        exact hnotin (he ▸ List.mem_map_of_mem Player.id hq)
      simp [hne]
    rw [hfold, ih _ hk' hndtail hnew', hcount x]
    by_cases hx : x = p.id
    · have hnin : x ∉ ps.map Player.id := hx ▸ hnotin
      have hmemc : x ∈ List.map Player.id (p :: ps) := by
        rw [List.map_cons]
        exact List.mem_cons.mpr (Or.inl hx)
      rw [if_pos hx, if_neg hnin, if_pos hmemc]
    · simp only [List.map_cons, List.mem_cons]
      have hiff : (x = p.id ∨ x ∈ ps.map Player.id) ↔ x ∈ ps.map Player.id := by
        constructor
        · rintro (h | h)
          · exact absurd h hx
          · exact h
        · exact Or.inr
      rw [if_congr hiff rfl rfl]
      simp [hx]

theorem populatePool_ids_nodup (entries : List (String × PlayerRec))
    (hn : (entries.map Prod.fst).Nodup) :
    ((populatePool entries).map Player.id).Nodup := by
  have hperm : ((populatePool entries).map Player.id).Perm
      (((entries.map (fun e => Player.mk e.1 e.2)).filter keepPosition).map Player.id) :=
    (List.mergeSort_perm _ playerLE).map Player.id
  refine List.Perm.nodup hperm.symm ?_
  have hsub : (((entries.map (fun e => Player.mk e.1 e.2)).filter keepPosition).map
      Player.id).Sublist ((entries.map (fun e => Player.mk e.1 e.2)).map Player.id) :=
    (List.filter_sublist _).map Player.id
  have hmm : ((entries.map (fun e => Player.mk e.1 e.2)).map Player.id) =
      entries.map Prod.fst := by
    rw [List.map_map]
    rfl
  exact hsub.nodup (hmm ▸ hn)

theorem stepOp_preserves_uniq (pool : List String) (s : AppState) (op : Op)
    (h : UniqInv pool s) : UniqInv pool (stepOp s op) := by
  obtain ⟨hp, hd, hc⟩ := h
  have hle : ∀ y, countAll s.dom y ≤ 1 := by
    intro y
    rw [hc y]
    split <;> omega
  have hhas : ∀ y ∈ pool, domHasId y s.dom = true := by
    intro y hy
    apply (domHasId_iff y s.dom).mpr
    rw [hc y, if_pos hy]
    omega
  cases op with
  | move id toTier toIdx =>
    refine ⟨hp, hd, fun x => ?_⟩
    show countAll (moveNode id toTier toIdx s.dom) x = _
    rw [countAll_moveNode id toTier toIdx s.dom x (hle id)]
    exact hc x
  | rankInput id v =>
    refine ⟨hp, hd, fun x => ?_⟩
    show countAll (applyRankInput s.dom id v).1 x = _
    rw [countAll_applyRankInput s.dom id v x (hle id)]
    exact hc x
  | renderInitial =>
    have hdome : (renderMorePlayers
        { s with displayArray := s.pool, displayedCount := 0 } DISPLAY_CHUNK).dom =
        s.dom := by
      apply renderMorePlayers_dom_eq
      intro id hid
      exact hhas id (hp ▸ hid)
    refine ⟨?_, ?_, ?_⟩
    · show (renderMorePlayers _ _).pool = pool
      rw [(renderMorePlayers_fields _ _).2]
      exact hp
    · intro id hid
      rw [show (stepOp s Op.renderInitial).displayArray =
        (renderMorePlayers { s with displayArray := s.pool, displayedCount := 0 }
          DISPLAY_CHUNK).displayArray from rfl,
        (renderMorePlayers_fields _ _).1] at hid
      exact hp ▸ hid
    · intro id
      show countAll (renderMorePlayers _ _).dom id = _
      rw [hdome]
      exact hc id
  | revealMore n =>
    have hdome : (renderMorePlayers s n).dom = s.dom := by
      apply renderMorePlayers_dom_eq
      intro id hid
      exact hhas id (hd id hid)
    refine ⟨?_, ?_, ?_⟩
    · rw [show (stepOp s (Op.revealMore n)).pool = (renderMorePlayers s n).pool from rfl,
        (renderMorePlayers_fields _ _).2]
      exact hp
    · intro id hid
      rw [show (stepOp s (Op.revealMore n)).displayArray =
        (renderMorePlayers s n).displayArray from rfl,
        (renderMorePlayers_fields _ _).1] at hid
      exact hd id hid
    · intro id
      show countAll (renderMorePlayers s n).dom id = _
      rw [hdome]
      exact hc id
  | addTier =>
    refine ⟨hp, hd, fun x => ?_⟩
    show countAll (addTierClick s.dom) x = _
    unfold addTierClick
    rw [countAll_insertTierBeforeUnranked _ rfl s.dom x]
    exact hc x
  | load entries =>
    refine ⟨hp, hd, fun x => ?_⟩
    show countAll (entries.foldl loadEntry s.dom) x = _
    rw [countAll_loadList entries x s.dom hle]
    exact hc x

theorem runOps_uniq (pool : List String) (ops : List Op) (s : AppState)
    (h : UniqInv pool s) : UniqInv pool (runOps ops s) := by
  induction ops generalizing s with
  | nil => exact h
  | cons op ops ih => exact ih _ (stepOp_preserves_uniq pool s op h)

theorem initState_inv (html : Dom) (hempty : ∀ t ∈ html, t.2 = [])
    (hu : TierKey.unranked ∈ html.map Prod.fst)
    (entries : List (String × PlayerRec)) (hn : (entries.map Prod.fst).Nodup)
    (saved : List (TierKey × List String)) :
    UniqInv ((populatePool entries).map Player.id) (initState html entries saved) := by
  have hrc : ∀ x, countAll (renderAll (populatePool entries) html) x =
      if x ∈ (populatePool entries).map Player.id then 1 else 0 := by
    intro x
    rw [renderAll_countAll (populatePool entries) x html hu
      (populatePool_ids_nodup entries hn)
      (fun p hp => countAll_html_zero html hempty p.id),
      countAll_html_zero html hempty x]
    simp
  refine ⟨rfl, by simp [initState], fun id => ?_⟩
  show countAll (saved.foldl loadEntry (renderAll (populatePool entries) html)) id = _
  rw [countAll_loadList saved id _ (fun y => by rw [hrc y]; split <;> omega), hrc id]

/-- C4.  From the state reached by `populateUnranked` (render all pool
players, restore the persisted tiers) on a fresh page whose markup provides
empty tier lists including the unranked one, after any sequence of drags,
manual rank edits, reveals, tier creations and registry restores, every
pool id sits in exactly one tier list and every other id in none — in
particular an already rendered id is never appended a second time. -/
theorem uniqueness_invariant (html : Dom) (hempty : ∀ t ∈ html, t.2 = [])
    (hu : TierKey.unranked ∈ html.map Prod.fst)
    (entries : List (String × PlayerRec)) (hn : (entries.map Prod.fst).Nodup)
    (saved : List (TierKey × List String)) (ops : List Op) (id : String) :
    countAll (runOps ops (initState html entries saved)).dom id =
      if id ∈ (initState html entries saved).pool then 1 else 0 := by
  have hinv := runOps_uniq ((populatePool entries).map Player.id) ops _
    (initState_inv html hempty hu entries hn saved)
  exact hinv.2.2 id

/-- Witness for C4: a one-player pool stays uniquely placed after a tier
creation and a drag into the new tier. -/
theorem uniqueness_invariant_witness :
    countAll (runOps [Op.addTier, Op.move "a" 0 0]
        (initState [(TierKey.unranked, [])]
          [("a", ⟨some "Al", some "Smith", none, some "QB"⟩)] [])).dom "a" =
      if "a" ∈ (initState [(TierKey.unranked, [])]
          [("a", ⟨some "Al", some "Smith", none, some "QB"⟩)] []).pool then 1 else 0 :=
  uniqueness_invariant [(TierKey.unranked, [])] (by decide) (by decide)
    [("a", ⟨some "Al", some "Smith", none, some "QB"⟩)] (by decide) []
    [Op.addTier, Op.move "a" 0 0] "a"

end CheatSheet
